import Mathlib

/-!
Verification of the graph-traversal helpers of `dashboard/lib/algo.ts`:
`treeBfs`, `graphBfs` and `getConnectedComponent`.

The JavaScript code works on heap objects (nodes exposing a `nextNodes`
list, shell nodes allocated per input node).  We embed nodes as natural
numbers: an input collection is a `List Nat` (order and multiplicity as
in the JS iteration) together with a successor map `adjF : Nat → List Nat`
(the `nextNodes` field).  The `Map` keyed by object identity becomes a
map keyed by the node number; the mutable `g` field of the shell nodes
becomes an explicitly threaded assignment `Nat → Int`.

The traversal loops of `treeBfs`/`graphBfs` are `while` loops; they are
embedded as fuel-indexed step functions returning `none` when the fuel
runs out before the queue empties.  Termination (existence of sufficient
fuel for every finite closed graph) is proved separately.

The JS code crashes (TypeError on `undefined`) when a successor is not a
member of the input collection; the spec declares such inputs a
precondition violation with undefined behavior, so every theorem about
`getConnectedComponent` carries the closedness precondition.
-/

namespace Algo

/-- The precondition of `getConnectedComponent`: every successor of an
input node is itself in the input collection. -/
def Closed (nodes : List Nat) (adjF : Nat → List Nat) : Prop :=
  ∀ u ∈ nodes, ∀ v ∈ adjF u, v ∈ nodes

instance (nodes : List Nat) (adjF : Nat → List Nat) :
    Decidable (Closed nodes adjF) := by
  unfold Closed; infer_instance

/-- Directed reachability along `adjF` (reflexive-transitive closure of
the one-step successor relation). -/
def Reach (adjF : Nat → List Nat) : Nat → Nat → Prop :=
  Relation.ReflTransGen (fun a b => b ∈ adjF a)

/-- One undirected step of the input graph: an input edge taken in either
direction. -/
def UndirStep (nodes : List Nat) (adjF : Nat → List Nat) (a b : Nat) : Prop :=
  (a ∈ nodes ∧ b ∈ adjF a) ∨ (b ∈ nodes ∧ a ∈ adjF b)

/-- Connectivity of the claim: a path of input edges taken in either
direction. -/
def Conn (nodes : List Nat) (adjF : Nat → List Nat) : Nat → Nat → Prop :=
  Relation.ReflTransGen (UndirStep nodes adjF)

/-- The key sequence of a JS `Map` filled by repeated `set`: first
occurrences, in insertion order.  `node2shellNodes.keys()` iterates
exactly this sequence. -/
def insertionKeys {α : Type} [DecidableEq α] (l : List α) : List α :=
  l.foldl (fun ks n => if n ∈ ks then ks else ks ++ [n]) []

theorem insertionKeys_append {α : Type} [DecidableEq α] (l : List α) (a : α) :
    insertionKeys (l ++ [a]) =
      if a ∈ insertionKeys l then insertionKeys l else insertionKeys l ++ [a] := by
  unfold insertionKeys
  rw [List.foldl_append]
  rfl

theorem mem_insertionKeys {α : Type} [DecidableEq α] (l : List α) (a : α) :
    a ∈ insertionKeys l ↔ a ∈ l := by
  induction l using List.reverseRecOn with
  | nil => simp [insertionKeys]
  | append_singleton l b ih =>
      rw [insertionKeys_append]
      by_cases hb : b ∈ insertionKeys l
      · simp only [if_pos hb]
        constructor
        · intro h; exact List.mem_append_left _ (ih.mp h)
        · intro h
          rcases List.mem_append.mp h with h | h
          · exact ih.mpr h
          · simp only [List.mem_singleton] at h; subst h; exact hb
      · simp only [if_neg hb, List.mem_append, List.mem_singleton, ih]

theorem insertionKeys_nodup {α : Type} [DecidableEq α] (l : List α) :
    (insertionKeys l).Nodup := by
  induction l using List.reverseRecOn with
  | nil => simp [insertionKeys]
  | append_singleton l b ih =>
      rw [insertionKeys_append]
      by_cases hb : b ∈ insertionKeys l
      · simpa [hb]
      · rw [if_neg hb, List.nodup_append]
        refine ⟨ih, List.nodup_singleton b, ?_⟩
        intro a ha hab
        simp only [List.mem_singleton] at hab
        subst hab
        exact hb ha

/-! ### Shell graph construction

`getConnectedComponent` first allocates one shell node per input node
(`g = -1`, empty `nextNodes`) and then, iterating the input collection
and each node's successors in order, pushes every edge in both
directions.  The nested loop is embedded as a fold over the flattened
edge list (the same sequence of pushes in the same order); the shell
nodes' `nextNodes` fields are embedded as a map `Nat → List Nat` keyed
by the underlying input node. -/

/-- The sequence of directed edges produced by iterating the input
collection and, inside it, each node's `nextNodes`, in order. -/
def shellEdges (nodes : List Nat) (adjF : Nat → List Nat) : List (Nat × Nat) :=
  nodes.foldr (fun u acc => (adjF u).map (fun v => (u, v)) ++ acc) []

/-- One iteration of the edge-mirroring loop:
`shellNode.nextNodes.push(nextShellNode); nextShellNode.nextNodes.push(shellNode)`. -/
def pushShellEdge (f : Nat → List Nat) (u v : Nat) : Nat → List Nat :=
  let f1 := fun x => if x = u then f u ++ [v] else f x
  fun x => if x = v then f1 v ++ [u] else f1 x

/-- The `nextNodes` fields of the shell nodes after the edge-mirroring
loop of `getConnectedComponent`. -/
def buildShell (nodes : List Nat) (adjF : Nat → List Nat) : Nat → List Nat :=
  (shellEdges nodes adjF).foldl (fun f uv => pushShellEdge f uv.1 uv.2) (fun _ => [])

theorem mem_shellEdges (nodes : List Nat) (adjF : Nat → List Nat) (a b : Nat) :
    (a, b) ∈ shellEdges nodes adjF ↔ a ∈ nodes ∧ b ∈ adjF a := by
  induction nodes with
  | nil => simp [shellEdges]
  | cons u rest ih =>
      simp only [shellEdges, List.foldr_cons, List.mem_append, List.mem_map,
        Prod.mk.injEq, List.mem_cons] at *
      constructor
      · rintro (⟨v, hv, ha, hb⟩ | h)
        · subst ha; subst hb; exact ⟨Or.inl rfl, hv⟩
        · rcases ih.mp h with ⟨ha, hb⟩; exact ⟨Or.inr ha, hb⟩
      · rintro ⟨ha | ha, hb⟩
        · subst ha; exact Or.inl ⟨b, hb, rfl, rfl⟩
        · exact Or.inr (ih.mpr ⟨ha, hb⟩)

theorem mem_pushShellEdge (f : Nat → List Nat) (u v a b : Nat) :
    b ∈ pushShellEdge f u v a ↔
      b ∈ f a ∨ (a = u ∧ b = v) ∨ (a = v ∧ b = u) := by
  unfold pushShellEdge
  by_cases hav : a = v
  · subst hav
    by_cases hau : a = u
    · subst hau
      simp [List.mem_append]
    · simp [if_neg hau, List.mem_append, hau]
  · by_cases hau : a = u
    · subst hau
      simp [if_neg hav, List.mem_append, hav]
    · simp [if_neg hav, if_neg hau, hav, hau]

theorem mem_foldl_pushShellEdge (E : List (Nat × Nat)) :
    ∀ (f : Nat → List Nat) (a b : Nat),
      b ∈ (E.foldl (fun f uv => pushShellEdge f uv.1 uv.2) f) a ↔
        b ∈ f a ∨ (a, b) ∈ E ∨ (b, a) ∈ E := by
  induction E with
  | nil => simp
  | cons uv rest ih =>
      obtain ⟨u, v⟩ := uv
      intro f a b
      simp only [List.foldl_cons, ih, mem_pushShellEdge, List.mem_cons,
        Prod.mk.injEq]
      tauto

/-- Membership in a shell node's `nextNodes` list is exactly the
undirected-edge relation of the input graph. -/
theorem mem_buildShell (nodes : List Nat) (adjF : Nat → List Nat) (a b : Nat) :
    b ∈ buildShell nodes adjF a ↔ UndirStep nodes adjF a b := by
  unfold buildShell UndirStep
  rw [mem_foldl_pushShellEdge]
  simp [mem_shellEdges]

theorem buildShell_symm (nodes : List Nat) (adjF : Nat → List Nat) (a b : Nat)
    (h : b ∈ buildShell nodes adjF a) : a ∈ buildShell nodes adjF b := by
  rw [mem_buildShell] at *
  unfold UndirStep at *
  tauto

theorem reach_buildShell_symm (nodes : List Nat) (adjF : Nat → List Nat)
    (a b : Nat) (h : Reach (buildShell nodes adjF) a b) :
    Reach (buildShell nodes adjF) b a := by
  induction h with
  | refl => exact Relation.ReflTransGen.refl
  | tail hxy hyz ih =>
      exact Relation.ReflTransGen.trans
        (Relation.ReflTransGen.single (buildShell_symm _ _ _ _ hyz)) ih

/-- Reachability in the shell graph coincides with connectivity under the
undirected closure of the input edges. -/
theorem reach_buildShell_iff_conn (nodes : List Nat) (adjF : Nat → List Nat)
    (a b : Nat) :
    Reach (buildShell nodes adjF) a b ↔ Conn nodes adjF a b := by
  constructor
  · intro h
    exact Relation.ReflTransGen.mono
      (fun x y hxy => (mem_buildShell nodes adjF x y).mp hxy) h
  · intro h
    exact Relation.ReflTransGen.mono
      (fun x y hxy => (mem_buildShell nodes adjF x y).mpr hxy) h

/-! ### `graphBfs`

The `while` loop of `graphBfs` keeps a queue and a visited `Set`; each
iteration shifts the head `c`, adds it to the visited set, calls the
step callback and, unless the callback returned true, pushes every not
yet visited neighbour.  The callback is an arbitrary stateful closure,
embedded as `stepF : σ → Nat → σ × Bool`; the visited set is embedded
as the list of first additions.  The loop is fuel-indexed: `none` means
the fuel ran out before the queue emptied. -/

def graphBfsRun {σ : Type} (adjF : Nat → List Nat) (stepF : σ → Nat → σ × Bool) :
    Nat → List Nat → List Nat → σ → Option (σ × List Nat)
  | _, vis, [], s => some (s, vis)
  | 0, _, _ :: _, _ => none
  | fuel + 1, vis, c :: rest, s =>
    let vis2 := if c ∈ vis then vis else vis ++ [c]
    let res := stepF s c
    if res.2 then graphBfsRun adjF stepF fuel vis2 rest res.1
    else graphBfsRun adjF stepF fuel vis2
      (rest ++ (adjF c).filter (fun v => decide (v ∉ vis2))) res.1

theorem graphBfsRun_nil {σ : Type} (adjF : Nat → List Nat)
    (stepF : σ → Nat → σ × Bool) (fuel : Nat) (vis : List Nat) (s : σ) :
    graphBfsRun adjF stepF fuel vis [] s = some (s, vis) := by
  cases fuel <;> simp [graphBfsRun]

theorem graphBfsRun_cons {σ : Type} (adjF : Nat → List Nat)
    (stepF : σ → Nat → σ × Bool) (fuel : Nat) (vis : List Nat) (c : Nat)
    (rest : List Nat) (s : σ) :
    graphBfsRun adjF stepF (fuel + 1) vis (c :: rest) s =
      (if (stepF s c).2 then
        graphBfsRun adjF stepF fuel (if c ∈ vis then vis else vis ++ [c]) rest
          (stepF s c).1
      else
        graphBfsRun adjF stepF fuel (if c ∈ vis then vis else vis ++ [c])
          (rest ++ (adjF c).filter
            (fun v => decide (v ∉ (if c ∈ vis then vis else vis ++ [c]))))
          (stepF s c).1) := by
  simp [graphBfsRun]

/-- Membership in the visited set only grows along a run. -/
theorem graphBfsRun_vis_mono {σ : Type} {adjF : Nat → List Nat}
    {stepF : σ → Nat → σ × Bool} :
    ∀ {fuel : Nat} {vis queue : List Nat} {s : σ} {s' : σ} {V : List Nat},
      graphBfsRun adjF stepF fuel vis queue s = some (s', V) →
      ∀ x ∈ vis, x ∈ V := by
  intro fuel
  induction fuel with
  | zero =>
      intro vis queue s s' V h x hx
      cases queue with
      | nil => rw [graphBfsRun_nil] at h; cases h; exact hx
      | cons c rest => simp [graphBfsRun] at h
  | succ fuel ih =>
      intro vis queue s s' V h x hx
      cases queue with
      | nil => rw [graphBfsRun_nil] at h; cases h; exact hx
      | cons c rest =>
          rw [graphBfsRun_cons] at h
          have hx2 : x ∈ (if c ∈ vis then vis else vis ++ [c]) := by
            by_cases hc : c ∈ vis <;> simp [hc, hx]
          by_cases hstop : (stepF s c).2
          · rw [if_pos hstop] at h
            exact ih h x hx2
          · rw [if_neg hstop] at h
            exact ih h x hx2

/-- Every node in the queue is eventually visited (the spec relies on
the queue draining before the loop exits). -/
theorem graphBfsRun_queue_vis {σ : Type} {adjF : Nat → List Nat}
    {stepF : σ → Nat → σ × Bool} :
    ∀ {fuel : Nat} {vis queue : List Nat} {s : σ} {s' : σ} {V : List Nat},
      graphBfsRun adjF stepF fuel vis queue s = some (s', V) →
      ∀ q ∈ queue, q ∈ V := by
  intro fuel
  induction fuel with
  | zero =>
      intro vis queue s s' V h q hq
      cases queue with
      | nil => simp at hq
      | cons c rest => simp [graphBfsRun] at h
  | succ fuel ih =>
      intro vis queue s s' V h q hq
      cases queue with
      | nil => simp at hq
      | cons c rest =>
          rw [graphBfsRun_cons] at h
          rcases List.mem_cons.mp hq with hqc | hqr
          · subst hqc
            have hq2 : q ∈ (if q ∈ vis then vis else vis ++ [q]) := by
              by_cases hc : q ∈ vis <;> simp [hc]
            by_cases hstop : (stepF s q).2
            · rw [if_pos hstop] at h
              exact graphBfsRun_vis_mono h q hq2
            · rw [if_neg hstop] at h
              exact graphBfsRun_vis_mono h q hq2
          · by_cases hstop : (stepF s c).2
            · rw [if_pos hstop] at h
              exact ih h q hqr
            · rw [if_neg hstop] at h
              exact ih h q (List.mem_append_left _ hqr)

/-- Soundness of the traversal: every visited node was already visited
at the start or is reachable from some node of the queue. -/
theorem graphBfsRun_sound {σ : Type} {adjF : Nat → List Nat}
    {stepF : σ → Nat → σ × Bool} :
    ∀ {fuel : Nat} {vis queue : List Nat} {s : σ} {s' : σ} {V : List Nat},
      graphBfsRun adjF stepF fuel vis queue s = some (s', V) →
      ∀ x ∈ V, x ∈ vis ∨ ∃ q ∈ queue, Reach adjF q x := by
  intro fuel
  induction fuel with
  | zero =>
      intro vis queue s s' V h x hx
      cases queue with
      | nil => rw [graphBfsRun_nil] at h; cases h; exact Or.inl hx
      | cons c rest => simp [graphBfsRun] at h
  | succ fuel ih =>
      intro vis queue s s' V h x hx
      cases queue with
      | nil => rw [graphBfsRun_nil] at h; cases h; exact Or.inl hx
      | cons c rest =>
          rw [graphBfsRun_cons] at h
          have hvis2 : ∀ y, y ∈ (if c ∈ vis then vis else vis ++ [c]) →
              y ∈ vis ∨ y = c := by
            intro y hy
            by_cases hc : c ∈ vis
            · rw [if_pos hc] at hy; exact Or.inl hy
            · rw [if_neg hc] at hy
              rcases List.mem_append.mp hy with hy | hy
              · exact Or.inl hy
              · exact Or.inr (List.mem_singleton.mp hy)
          by_cases hstop : (stepF s c).2
          · rw [if_pos hstop] at h
            rcases ih h x hx with hx2 | ⟨q, hq, hr⟩
            · rcases hvis2 x hx2 with hx3 | hx3
              · exact Or.inl hx3
              · refine Or.inr ⟨c, List.mem_cons_self _ _, ?_⟩
                rw [hx3]
                exact Relation.ReflTransGen.refl
            · exact Or.inr ⟨q, List.mem_cons_of_mem _ hq, hr⟩
          · rw [if_neg hstop] at h
            rcases ih h x hx with hx2 | ⟨q, hq, hr⟩
            · rcases hvis2 x hx2 with hx3 | hx3
              · exact Or.inl hx3
              · refine Or.inr ⟨c, List.mem_cons_self _ _, ?_⟩
                rw [hx3]
                exact Relation.ReflTransGen.refl
            · rcases List.mem_append.mp hq with hq | hq
              · exact Or.inr ⟨q, List.mem_cons_of_mem _ hq, hr⟩
              · have hqc : q ∈ adjF c := (List.mem_filter.mp hq).1
                refine Or.inr ⟨c, List.mem_cons_self _ _, ?_⟩
                exact Relation.ReflTransGen.trans
                  (Relation.ReflTransGen.single hqc) hr

/-- If the callback never asks to stop, the final visited set is closed
under the successor relation except possibly for initially visited
nodes. -/
theorem graphBfsRun_vis_closed {σ : Type} {adjF : Nat → List Nat}
    {stepF : σ → Nat → σ × Bool}
    (hns : ∀ (s : σ) (c : Nat), (stepF s c).2 = false) :
    ∀ {fuel : Nat} {vis queue : List Nat} {s : σ} {s' : σ} {V : List Nat},
      graphBfsRun adjF stepF fuel vis queue s = some (s', V) →
      ∀ u ∈ V, u ∈ vis ∨ ∀ v ∈ adjF u, v ∈ V := by
  intro fuel
  induction fuel with
  | zero =>
      intro vis queue s s' V h u hu
      cases queue with
      | nil => rw [graphBfsRun_nil] at h; cases h; exact Or.inl hu
      | cons c rest => simp [graphBfsRun] at h
  | succ fuel ih =>
      intro vis queue s s' V h u hu
      cases queue with
      | nil => rw [graphBfsRun_nil] at h; cases h; exact Or.inl hu
      | cons c rest =>
          rw [graphBfsRun_cons, hns, if_neg (by simp)] at h
          rcases ih h u hu with hu2 | hcl
          · by_cases hc : c ∈ vis
            · rw [if_pos hc] at hu2
              exact Or.inl hu2
            · rw [if_neg hc] at hu2
              rcases List.mem_append.mp hu2 with hu3 | hu3
              · exact Or.inl hu3
              · right
                have huc : u = c := List.mem_singleton.mp hu3
                subst huc
                intro v hv
                by_cases hvv : v ∈ (if u ∈ vis then vis else vis ++ [u])
                · exact graphBfsRun_vis_mono h v hvv
                · refine graphBfsRun_queue_vis h v ?_
                  refine List.mem_append_right _ ?_
                  rw [List.mem_filter]
                  exact ⟨hv, by simpa using hvv⟩
          · exact Or.inr hcl

/-- Characterization of the visited set of a full `graphBfs` run with a
never-stopping callback: exactly the nodes reachable from the root. -/
theorem graphBfsRun_mem_iff_reach {σ : Type} {adjF : Nat → List Nat}
    {stepF : σ → Nat → σ × Bool}
    (hns : ∀ (s : σ) (c : Nat), (stepF s c).2 = false)
    {fuel : Nat} {root : Nat} {s : σ} {s' : σ} {V : List Nat}
    (h : graphBfsRun adjF stepF fuel [] [root] s = some (s', V)) (x : Nat) :
    x ∈ V ↔ Reach adjF root x := by
  constructor
  · intro hx
    rcases graphBfsRun_sound h x hx with hx2 | ⟨q, hq, hr⟩
    · simp at hx2
    · rcases List.mem_singleton.mp hq with rfl
      exact hr
  · intro hr
    induction hr with
    | refl => exact graphBfsRun_queue_vis h root (List.mem_singleton_self _)
    | tail hxy hyz ihr =>
        rcases graphBfsRun_vis_closed hns h _ ihr with h2 | h2
        · simp at h2
        · exact h2 _ hyz

/-! ### Group-number assignment

In `getConnectedComponent`, the step callback of each propagation run is
`(c) => { c.g = shellNode.g; return false; }` where `shellNode` is the
seed whose `g` was just set to the fresh number `cnt`.  Nothing changes
the seed's `g` during the run (the callback rewrites it with the same
value at most), so the callback writes the constant `cnt`. -/

/-- The step callback used by the group propagation: assign the group
number `cnt` to the visited shell node, never stop. -/
def setStep (cnt : Nat) : (Nat → Int) → Nat → ((Nat → Int) × Bool) :=
  fun gm c => (fun x => if x = c then (cnt : Int) else gm x, false)

theorem setStep_ns (cnt : Nat) : ∀ (s : Nat → Int) (c : Nat),
    (setStep cnt s c).2 = false := by
  intro s c; rfl

/-- A `g` entry already equal to `cnt` survives a propagation run. -/
theorem graphBfsRun_setStep_pres {shAdj : Nat → List Nat} {cnt : Nat} :
    ∀ {fuel : Nat} {vis queue : List Nat} {g g' : Nat → Int} {V : List Nat},
      graphBfsRun shAdj (setStep cnt) fuel vis queue g = some (g', V) →
      ∀ x, g x = (cnt : Int) → g' x = (cnt : Int) := by
  intro fuel
  induction fuel with
  | zero =>
      intro vis queue g g' V h x hx
      cases queue with
      | nil => rw [graphBfsRun_nil] at h; cases h; exact hx
      | cons c rest => simp [graphBfsRun] at h
  | succ fuel ih =>
      intro vis queue g g' V h x hx
      cases queue with
      | nil => rw [graphBfsRun_nil] at h; cases h; exact hx
      | cons c rest =>
          rw [graphBfsRun_cons, setStep_ns, if_neg (by simp)] at h
          refine ih h x ?_
          show (if x = c then (cnt : Int) else g x) = (cnt : Int)
          by_cases hxc : x = c <;> simp [hxc, hx]

/-- Nodes outside the visited set keep their `g` entry. -/
theorem graphBfsRun_setStep_frame {shAdj : Nat → List Nat} {cnt : Nat} :
    ∀ {fuel : Nat} {vis queue : List Nat} {g g' : Nat → Int} {V : List Nat},
      graphBfsRun shAdj (setStep cnt) fuel vis queue g = some (g', V) →
      ∀ x, x ∉ V → g' x = g x := by
  intro fuel
  induction fuel with
  | zero =>
      intro vis queue g g' V h x hx
      cases queue with
      | nil => rw [graphBfsRun_nil] at h; cases h; rfl
      | cons c rest => simp [graphBfsRun] at h
  | succ fuel ih =>
      intro vis queue g g' V h x hx
      cases queue with
      | nil => rw [graphBfsRun_nil] at h; cases h; rfl
      | cons c rest =>
          rw [graphBfsRun_cons, setStep_ns, if_neg (by simp)] at h
          have hcV : c ∈ V := by
            refine graphBfsRun_vis_mono h c ?_
            by_cases hc : c ∈ vis <;> simp [hc]
          have hxc : x ≠ c := fun he => hx (he ▸ hcV)
          have := ih h x hx
          rw [this]
          show (if x = c then (cnt : Int) else g x) = g x
          rw [if_neg hxc]

/-- Nodes visited during a propagation run get the group number `cnt`. -/
theorem graphBfsRun_setStep_assigned {shAdj : Nat → List Nat} {cnt : Nat} :
    ∀ {fuel : Nat} {vis queue : List Nat} {g g' : Nat → Int} {V : List Nat},
      graphBfsRun shAdj (setStep cnt) fuel vis queue g = some (g', V) →
      ∀ x ∈ V, x ∉ vis → g' x = (cnt : Int) := by
  intro fuel
  induction fuel with
  | zero =>
      intro vis queue g g' V h x hx hxv
      cases queue with
      | nil => rw [graphBfsRun_nil] at h; cases h; exact absurd hx hxv
      | cons c rest => simp [graphBfsRun] at h
  | succ fuel ih =>
      intro vis queue g g' V h x hx hxv
      cases queue with
      | nil => rw [graphBfsRun_nil] at h; cases h; exact absurd hx hxv
      | cons c rest =>
          rw [graphBfsRun_cons, setStep_ns, if_neg (by simp)] at h
          by_cases hxc : x = c
          · subst hxc
            refine graphBfsRun_setStep_pres h x ?_
            show (if x = x then (cnt : Int) else g x) = (cnt : Int)
            rw [if_pos rfl]
          · refine ih h x hx ?_
            by_cases hc : c ∈ vis
            · simpa [hc] using hxv
            · simp only [if_neg hc, List.mem_append, List.mem_singleton]
              rintro (h2 | h2)
              · exact hxv h2
              · exact hxc h2

/-- Net effect of one propagation run of `getConnectedComponent`: the
whole shell-graph component of the seed `k` is set to `cnt`, everything
else is untouched. -/
theorem graphBfsRun_assign_summary {shAdj : Nat → List Nat} {cnt : Nat}
    {fuel : Nat} {k : Nat} {g g' : Nat → Int} {V : List Nat}
    (h : graphBfsRun shAdj (setStep cnt) fuel [] [k]
      (fun x => if x = k then (cnt : Int) else g x) = some (g', V)) :
    ∀ x, (Reach shAdj k x → g' x = (cnt : Int)) ∧
      (¬ Reach shAdj k x → g' x = g x) := by
  intro x
  constructor
  · intro hr
    have hxV : x ∈ V := (graphBfsRun_mem_iff_reach (setStep_ns cnt) h x).mpr hr
    exact graphBfsRun_setStep_assigned h x hxV (by simp)
  · intro hr
    have hxV : x ∉ V := fun hm =>
      hr ((graphBfsRun_mem_iff_reach (setStep_ns cnt) h x).mp hm)
    have := graphBfsRun_setStep_frame h x hxV
    rw [this]
    have hxk : x ≠ k := by
      intro he; subst he; exact hr Relation.ReflTransGen.refl
    rw [if_neg hxk]

/-- The group-number assignment loop of `getConnectedComponent`: iterate
the map keys in insertion order; for each key whose shell node is still
unassigned, set its `g` to the fresh number `cnt`, propagate it with
`graphBfs` over the shell graph, and increment `cnt`. -/
def assignLoop (shAdj : Nat → List Nat) (fuel : Nat) :
    List Nat → (Nat → Int) → Nat → Option ((Nat → Int) × Nat)
  | [], g, cnt => some (g, cnt)
  | k :: ks, g, cnt =>
    if g k = -1 then
      match graphBfsRun shAdj (setStep cnt) fuel [] [k]
          (fun x => if x = k then (cnt : Int) else g x) with
      | none => none
      | some (g2, _) => assignLoop shAdj fuel ks g2 (cnt + 1)
    else assignLoop shAdj fuel ks g cnt

/-- Invariant of the assignment loop after some prefix `processed` of
the keys has been handled: assigned components are complete and
pairwise separated, group numbers are exactly `0,…,cnt-1`, each with a
processed representative, appearing in scan order. -/
structure Inv (shAdj : Nat → List Nat) (processed : List Nat)
    (g : Nat → Int) (cnt : Nat) : Prop where
  compClosed : ∀ x y, g x ≠ -1 → Reach shAdj x y → g y = g x
  sameConn : ∀ x y, g x ≠ -1 → g x = g y → Reach shAdj x y
  rangeBound : ∀ x, g x ≠ -1 → ∃ i : Nat, i < cnt ∧ g x = (i : Int)
  reprProcessed : ∀ i : Nat, i < cnt → ∃ p ∈ processed, g p = (i : Int)
  procAssigned : ∀ k ∈ processed, g k ≠ -1
  fresh : insertionKeys (processed.map g) =
    (List.range cnt).map (fun i : Nat => (i : Int))

theorem inv_init (shAdj : Nat → List Nat) :
    Inv shAdj [] (fun _ => (-1 : Int)) 0 := by
  refine ⟨?_, ?_, ?_, ?_, ?_, ?_⟩
  · intro x y hx; simp at hx
  · intro x y hx; simp at hx
  · intro x hx; simp at hx
  · intro i hi; omega
  · intro k hk; simp at hk
  · simp [insertionKeys]

theorem inv_step_new (shAdj : Nat → List Nat)
    (hsym : ∀ a b, Reach shAdj a b → Reach shAdj b a)
    {processed : List Nat} {g : Nat → Int} {cnt : Nat} {k : Nat}
    (hInv : Inv shAdj processed g cnt) (hk : g k = -1)
    {g2 : Nat → Int}
    (hg2 : ∀ x, (Reach shAdj k x → g2 x = (cnt : Int)) ∧
      (¬ Reach shAdj k x → g2 x = g x)) :
    Inv shAdj (processed ++ [k]) g2 (cnt + 1) := by
  have hcnt : (cnt : Int) ≠ -1 := by omega
  have key : ∀ x, g x ≠ -1 → ¬ Reach shAdj k x := by
    intro x hx hr
    have h2 := hInv.compClosed x k hx (hsym _ _ hr)
    rw [hk] at h2
    exact hx h2.symm
  refine ⟨?_, ?_, ?_, ?_, ?_, ?_⟩
  · intro x y hx hr
    by_cases hkx : Reach shAdj k x
    · rw [(hg2 y).1 (Relation.ReflTransGen.trans hkx hr),
        (hg2 x).1 hkx]
    · have hgx : g2 x = g x := (hg2 x).2 hkx
      have hky : ¬ Reach shAdj k y := by
        intro hky
        exact hkx (Relation.ReflTransGen.trans hky (hsym _ _ hr))
      rw [(hg2 y).2 hky, hgx]
      exact hInv.compClosed x y (hgx ▸ hx) hr
  · intro x y hx hxy
    by_cases hkx : Reach shAdj k x <;> by_cases hky : Reach shAdj k y
    · exact Relation.ReflTransGen.trans (hsym _ _ hkx) hky
    · exfalso
      have h1 : g2 x = (cnt : Int) := (hg2 x).1 hkx
      have h2 : g2 y = g y := (hg2 y).2 hky
      have hgy : g y = (cnt : Int) := by rw [← h2, ← hxy, h1]
      have hgyne : g y ≠ -1 := by rw [hgy]; exact hcnt
      obtain ⟨i, hi, hgi⟩ := hInv.rangeBound y hgyne
      rw [hgy] at hgi
      omega
    · exfalso
      have h1 : g2 x = g x := (hg2 x).2 hkx
      have h2 : g2 y = (cnt : Int) := (hg2 y).1 hky
      have hgx : g x = (cnt : Int) := by rw [← h1, hxy, h2]
      have hgxne : g x ≠ -1 := by rw [hgx]; exact hcnt
      obtain ⟨i, hi, hgi⟩ := hInv.rangeBound x hgxne
      rw [hgx] at hgi
      omega
    · have h1 : g2 x = g x := (hg2 x).2 hkx
      have h2 : g2 y = g y := (hg2 y).2 hky
      rw [h1] at hx hxy
      rw [h2] at hxy
      exact hInv.sameConn x y hx hxy
  · intro x hx
    by_cases hkx : Reach shAdj k x
    · exact ⟨cnt, Nat.lt_succ_self _, (hg2 x).1 hkx⟩
    · have h1 : g2 x = g x := (hg2 x).2 hkx
      rw [h1] at hx
      obtain ⟨i, hi, hgi⟩ := hInv.rangeBound x hx
      exact ⟨i, Nat.lt_succ_of_lt hi, h1 ▸ hgi⟩
  · intro i hi
    rcases Nat.lt_succ_iff_lt_or_eq.mp hi with hi | hi
    · obtain ⟨p, hp, hgp⟩ := hInv.reprProcessed i hi
      have hpk : ¬ Reach shAdj k p := key p (hInv.procAssigned p hp)
      exact ⟨p, List.mem_append_left _ hp, ((hg2 p).2 hpk) ▸ hgp⟩
    · subst hi
      exact ⟨k, List.mem_append_right _ (List.mem_singleton_self _),
        (hg2 k).1 Relation.ReflTransGen.refl⟩
  · intro j hj
    rcases List.mem_append.mp hj with hj | hj
    · by_cases hkj : Reach shAdj k j
      · rw [(hg2 j).1 hkj]; exact hcnt
      · rw [(hg2 j).2 hkj]; exact hInv.procAssigned j hj
    · rcases List.mem_singleton.mp hj with rfl
      rw [(hg2 j).1 Relation.ReflTransGen.refl]
      exact hcnt
  · have hmap : processed.map g2 = processed.map g := by
      refine List.map_congr_left ?_
      intro p hp
      exact (hg2 p).2 (key p (hInv.procAssigned p hp))
    have hgk : g2 k = (cnt : Int) := (hg2 k).1 Relation.ReflTransGen.refl
    rw [List.map_append, hmap, List.map_singleton, hgk, insertionKeys_append,
      hInv.fresh]
    have hnm : ((cnt : Int)) ∉ (List.range cnt).map (fun i : Nat => (i : Int)) := by
      intro hm
      rcases List.mem_map.mp hm with ⟨i, hi, hie⟩
      rw [List.mem_range] at hi
      omega
    rw [if_neg hnm, List.range_succ, List.map_append, List.map_singleton]

theorem inv_step_old (shAdj : Nat → List Nat)
    {processed : List Nat} {g : Nat → Int} {cnt : Nat} {k : Nat}
    (hInv : Inv shAdj processed g cnt) (hk : g k ≠ -1) :
    Inv shAdj (processed ++ [k]) g cnt := by
  refine ⟨hInv.compClosed, hInv.sameConn, hInv.rangeBound, ?_, ?_, ?_⟩
  · intro i hi
    obtain ⟨p, hp, hgp⟩ := hInv.reprProcessed i hi
    exact ⟨p, List.mem_append_left _ hp, hgp⟩
  · intro j hj
    rcases List.mem_append.mp hj with hj | hj
    · exact hInv.procAssigned j hj
    · rcases List.mem_singleton.mp hj with rfl
      exact hk
  · obtain ⟨i, hi, hgi⟩ := hInv.rangeBound k hk
    have hmem : g k ∈ (List.range cnt).map (fun i : Nat => (i : Int)) := by
      rw [hgi]
      exact List.mem_map.mpr ⟨i, List.mem_range.mpr hi, rfl⟩
    rw [List.map_append, List.map_singleton, insertionKeys_append, hInv.fresh,
      if_pos hmem]

theorem assignLoop_inv (shAdj : Nat → List Nat)
    (hsym : ∀ a b, Reach shAdj a b → Reach shAdj b a) (fuel : Nat) :
    ∀ (ks processed : List Nat) (g : Nat → Int) (cnt : Nat)
      (g' : Nat → Int) (cnt' : Nat),
      Inv shAdj processed g cnt →
      assignLoop shAdj fuel ks g cnt = some (g', cnt') →
      Inv shAdj (processed ++ ks) g' cnt' := by
  intro ks
  induction ks with
  | nil =>
      intro processed g cnt g' cnt' hInv h
      simp only [assignLoop, Option.some.injEq, Prod.mk.injEq] at h
      obtain ⟨h1, h2⟩ := h
      subst h1; subst h2
      simpa using hInv
  | cons k ks ih =>
      intro processed g cnt g' cnt' hInv h
      simp only [assignLoop] at h
      by_cases hk : g k = -1
      · rw [if_pos hk] at h
        cases hbfs : graphBfsRun shAdj (setStep cnt) fuel [] [k]
            (fun x => if x = k then (cnt : Int) else g x) with
        | none => rw [hbfs] at h; simp at h
        | some r =>
            obtain ⟨g2, V⟩ := r
            rw [hbfs] at h
            have hg2 := graphBfsRun_assign_summary hbfs
            have hInv2 := inv_step_new shAdj hsym hInv hk hg2
            have := ih (processed ++ [k]) g2 (cnt + 1) g' cnt' hInv2 h
            rwa [List.append_assoc, List.singleton_append] at this
      · rw [if_neg hk] at h
        have hInv2 := inv_step_old shAdj hInv hk
        have := ih (processed ++ [k]) g cnt g' cnt' hInv2 h
        rwa [List.append_assoc, List.singleton_append] at this

/-! ### Bucketing and `getConnectedComponent` -/

/-- Modelled from the spec: `newMatrix` comes from `./util` which is not
part of the sources; the spec's step 3 buckets the nodes into output
groups indexed by group identifier `0 … cnt-1`, so `newMatrix cnt`
allocates `cnt` empty rows. -/
def newMatrix (n : Nat) : List (List Nat) :=
  List.replicate n []

/-- The bucketing loop: `group[shellNode.g].push(node)` for each map key
in insertion order. -/
def bucketGroups (keys : List Nat) (g : Nat → Int) (cnt : Nat) :
    List (List Nat) :=
  keys.foldl
    (fun mat k => mat.set (g k).toNat ((mat.getD (g k).toNat []) ++ [k]))
    (newMatrix cnt)

/-- The output shape described by the spec: groups indexed by their
identifier in increasing order, each group listing its nodes in key-scan
order. -/
def groupsSpec (keys : List Nat) (g : Nat → Int) (cnt : Nat) :
    List (List Nat) :=
  (List.range cnt).map
    (fun i : Nat => keys.filter (fun k => decide (g k = (i : Int))))

/-- The connected-component grouping of `getConnectedComponent`, with
explicit fuel for the inner breadth-first traversals (`none` when the
fuel does not suffice). -/
def getConnectedComponent (fuel : Nat) (nodes : List Nat)
    (adjF : Nat → List Nat) : Option (List (List Nat)) :=
  match assignLoop (buildShell nodes adjF) fuel (insertionKeys nodes)
      (fun _ => (-1 : Int)) 0 with
  | none => none
  | some (g, cnt) => some (bucketGroups (insertionKeys nodes) g cnt)

theorem set_map_range {α : Type} (n i : Nat) (f : Nat → α) (v : α)
    (h : i < n) :
    ((List.range n).map f).set i v =
      (List.range n).map (fun j => if j = i then v else f j) := by
  refine List.ext_getElem (by simp) ?_
  intro j h1 h2
  simp only [List.length_map, List.length_range] at h1
  by_cases hji : j = i
  · subst hji
    rw [List.getElem_set_self (by simpa)]
    rw [List.getElem_map]
    simp
  · rw [List.getElem_set_ne (by omega)]
    rw [List.getElem_map, List.getElem_map, List.getElem_range]
    rw [if_neg hji]

theorem getD_map_range {α : Type} (n i : Nat) (f : Nat → α) (d : α)
    (h : i < n) :
    ((List.range n).map f).getD i d = f i := by
  rw [List.getD_eq_getElem?_getD]
  rw [List.getElem?_map]
  rw [List.getElem?_range h]
  rfl

theorem newMatrix_eq_groupsSpec (g : Nat → Int) (cnt : Nat) :
    newMatrix cnt = groupsSpec [] g cnt := by
  unfold newMatrix groupsSpec
  simp [List.filter_nil]

theorem bucketGroups_eq_groupsSpec (g : Nat → Int) (cnt : Nat) :
    ∀ (l p : List Nat),
      (∀ k ∈ l, ∃ i : Nat, i < cnt ∧ g k = (i : Int)) →
      l.foldl
        (fun mat k => mat.set (g k).toNat ((mat.getD (g k).toNat []) ++ [k]))
        (groupsSpec p g cnt) = groupsSpec (p ++ l) g cnt := by
  intro l
  induction l with
  | nil => intro p _; simp
  | cons k l ih =>
      intro p hvals
      obtain ⟨i, hi, hgk⟩ := hvals k (List.mem_cons_self _ _)
      have htoNat : (g k).toNat = i := by rw [hgk]; exact Int.toNat_natCast i
      have hstep :
          (groupsSpec p g cnt).set (g k).toNat
            ((groupsSpec p g cnt).getD (g k).toNat [] ++ [k]) =
          groupsSpec (p ++ [k]) g cnt := by
        unfold groupsSpec
        rw [htoNat, getD_map_range _ _ _ _ hi, set_map_range _ _ _ _ hi]
        refine List.map_congr_left ?_
        intro j hj
        rw [List.mem_range] at hj
        by_cases hji : j = i
        · subst hji
          rw [if_pos rfl, List.filter_append]
          have : List.filter (fun k2 => decide (g k2 = (j : Int))) [k] = [k] := by
            simp [hgk]
          rw [this]
        · rw [if_neg hji, List.filter_append]
          have : List.filter (fun k2 => decide (g k2 = (j : Int))) [k] = [] := by
            have : ¬ (g k = (j : Int)) := by
              rw [hgk]
              intro he
              exact hji (by exact_mod_cast he.symm)
            simp [this]
          rw [this, List.append_nil]
      rw [List.foldl_cons, hstep,
        ih (p ++ [k]) (fun k2 hk2 => hvals k2 (List.mem_cons_of_mem _ hk2)),
        List.append_assoc, List.singleton_append]

theorem bucketGroups_eq (keys : List Nat) (g : Nat → Int) (cnt : Nat)
    (hvals : ∀ k ∈ keys, ∃ i : Nat, i < cnt ∧ g k = (i : Int)) :
    bucketGroups keys g cnt = groupsSpec keys g cnt := by
  unfold bucketGroups
  rw [newMatrix_eq_groupsSpec g cnt,
    bucketGroups_eq_groupsSpec g cnt keys [] hvals, List.nil_append]

/-- Anatomy of a successful `getConnectedComponent` run: the assignment
loop succeeded, its result satisfies the loop invariant over all keys,
and the returned groups are the identifier-indexed buckets. -/
theorem getConnectedComponent_eq {fuel : Nat} {nodes : List Nat}
    {adjF : Nat → List Nat} {gs : List (List Nat)}
    (h : getConnectedComponent fuel nodes adjF = some gs) :
    ∃ (g : Nat → Int) (cnt : Nat),
      assignLoop (buildShell nodes adjF) fuel (insertionKeys nodes)
        (fun _ => (-1 : Int)) 0 = some (g, cnt) ∧
      Inv (buildShell nodes adjF) (insertionKeys nodes) g cnt ∧
      gs = groupsSpec (insertionKeys nodes) g cnt := by
  unfold getConnectedComponent at h
  cases hal : assignLoop (buildShell nodes adjF) fuel (insertionKeys nodes)
      (fun _ => (-1 : Int)) 0 with
  | none => rw [hal] at h; simp at h
  | some r =>
      obtain ⟨g, cnt⟩ := r
      rw [hal] at h
      simp only [Option.some.injEq] at h
      have hInv : Inv (buildShell nodes adjF) (insertionKeys nodes) g cnt := by
        have := assignLoop_inv (buildShell nodes adjF)
          (reach_buildShell_symm nodes adjF) fuel (insertionKeys nodes) []
          (fun _ => (-1 : Int)) 0 g cnt (inv_init _) hal
        simpa using this
      refine ⟨g, cnt, rfl, hInv, ?_⟩
      rw [← h]
      refine bucketGroups_eq _ _ _ ?_
      intro k hk
      exact hInv.rangeBound k (hInv.procAssigned k hk)

/-! ### Fuel irrelevance

The fuel is a modelling artifact for the `while` loops; any two
sufficient fuels produce the same result. -/

theorem graphBfsRun_fuel_succ {σ : Type} {adjF : Nat → List Nat}
    {stepF : σ → Nat → σ × Bool} :
    ∀ {fuel : Nat} {vis queue : List Nat} {s : σ} {r : σ × List Nat},
      graphBfsRun adjF stepF fuel vis queue s = some r →
      graphBfsRun adjF stepF (fuel + 1) vis queue s = some r := by
  intro fuel
  induction fuel with
  | zero =>
      intro vis queue s r h
      cases queue with
      | nil => rw [graphBfsRun_nil] at h ⊢; exact h
      | cons c rest => simp [graphBfsRun] at h
  | succ fuel ih =>
      intro vis queue s r h
      cases queue with
      | nil => rw [graphBfsRun_nil] at h ⊢; exact h
      | cons c rest =>
          rw [graphBfsRun_cons] at h ⊢
          by_cases hstop : (stepF s c).2
          · rw [if_pos hstop] at h ⊢; exact ih h
          · rw [if_neg hstop] at h ⊢; exact ih h

theorem graphBfsRun_fuel_le {σ : Type} {adjF : Nat → List Nat}
    {stepF : σ → Nat → σ × Bool} {fuel fuel' : Nat} {vis queue : List Nat}
    {s : σ} {r : σ × List Nat} (hle : fuel ≤ fuel')
    (h : graphBfsRun adjF stepF fuel vis queue s = some r) :
    graphBfsRun adjF stepF fuel' vis queue s = some r := by
  obtain ⟨d, rfl⟩ : ∃ d, fuel' = fuel + d := ⟨fuel' - fuel, by omega⟩
  clear hle
  induction d with
  | zero => exact h
  | succ d ih =>
      have : fuel + (d + 1) = (fuel + d) + 1 := by omega
      rw [this]
      exact graphBfsRun_fuel_succ ih

theorem assignLoop_fuel_le {shAdj : Nat → List Nat} {fuel fuel' : Nat}
    (hle : fuel ≤ fuel') :
    ∀ {ks : List Nat} {g : Nat → Int} {cnt : Nat} {r : (Nat → Int) × Nat},
      assignLoop shAdj fuel ks g cnt = some r →
      assignLoop shAdj fuel' ks g cnt = some r := by
  intro ks
  induction ks with
  | nil =>
      intro g cnt r h
      simpa [assignLoop] using h
  | cons k ks ih =>
      intro g cnt r h
      simp only [assignLoop] at h ⊢
      by_cases hk : g k = -1
      · rw [if_pos hk] at h ⊢
        cases hbfs : graphBfsRun shAdj (setStep cnt) fuel [] [k]
            (fun x => if x = k then (cnt : Int) else g x) with
        | none => rw [hbfs] at h; simp at h
        | some r2 =>
            rw [hbfs] at h
            rw [graphBfsRun_fuel_le hle hbfs]
            obtain ⟨g2, V⟩ := r2
            exact ih h
      · rw [if_neg hk] at h ⊢
        exact ih h

theorem getConnectedComponent_fuel_le {fuel fuel' : Nat} {nodes : List Nat}
    {adjF : Nat → List Nat} {gs : List (List Nat)} (hle : fuel ≤ fuel')
    (h : getConnectedComponent fuel nodes adjF = some gs) :
    getConnectedComponent fuel' nodes adjF = some gs := by
  unfold getConnectedComponent at h ⊢
  cases hal : assignLoop (buildShell nodes adjF) fuel (insertionKeys nodes)
      (fun _ => (-1 : Int)) 0 with
  | none => rw [hal] at h; simp at h
  | some r =>
      rw [hal] at h
      rw [assignLoop_fuel_le hle hal]
      exact h

/-! ### Counting nodes in the output -/

/-- Concatenation of the output groups. -/
def flattenGroups (gs : List (List Nat)) : List Nat :=
  gs.foldr (fun a b => a ++ b) []

theorem count_flattenGroups (L : List (List Nat)) (u : Nat) :
    (flattenGroups L).count u = (L.map (fun l => l.count u)).sum := by
  induction L with
  | nil => simp [flattenGroups]
  | cons a L ih =>
      show (a ++ flattenGroups L).count u = _
      rw [List.count_append, ih, List.map_cons, List.sum_cons]

theorem nodup_count (l : List Nat) (hnd : l.Nodup) (a : Nat) :
    l.count a = if a ∈ l then 1 else 0 := by
  induction l with
  | nil => simp
  | cons b l ih =>
      rw [List.nodup_cons] at hnd
      rw [List.count_cons]
      by_cases hab : a = b
      · subst hab
        rw [ih hnd.2, if_neg hnd.1, if_pos (List.mem_cons_self _ _)]
        simp
      · rw [ih hnd.2]
        simp only [List.mem_cons, hab, false_or]
        by_cases hal : a ∈ l <;> simp [hal, hab, Ne.symm hab]

theorem sum_indicator (i0 : Nat) :
    ∀ n : Nat, i0 < n →
      (((List.range n).map (fun i => if i = i0 then 1 else 0)).sum) = 1 := by
  intro n
  induction n with
  | zero => omega
  | succ n ih =>
      intro hi
      rw [List.range_succ, List.map_append, List.sum_append]
      by_cases hn : i0 = n
      · subst hn
        have hz : (((List.range i0).map
            (fun i => if i = i0 then 1 else 0)).sum) = 0 := by
          refine List.sum_eq_zero ?_
          intro x hx
          rcases List.mem_map.mp hx with ⟨i, hi2, hie⟩
          rw [List.mem_range] at hi2
          rw [← hie, if_neg (by omega)]
        rw [hz]
        simp
      · rw [ih (by omega)]
        simp [Ne.symm hn]

theorem count_groupsSpec (keys : List Nat) (g : Nat → Int) (cnt : Nat)
    (hnd : keys.Nodup) (u : Nat) (hu : u ∈ keys) (i0 : Nat) (hi0 : i0 < cnt)
    (hgu : g u = (i0 : Int)) :
    (flattenGroups (groupsSpec keys g cnt)).count u = 1 := by
  unfold groupsSpec
  rw [count_flattenGroups, List.map_map]
  have hpt : ∀ i ∈ List.range cnt,
      ((fun l => l.count u) ∘
        fun i : Nat => keys.filter (fun k => decide (g k = (i : Int)))) i =
      if i = i0 then 1 else 0 := by
    intro i _
    show (keys.filter (fun k => decide (g k = (i : Int)))).count u = _
    rw [nodup_count _ (hnd.filter _) u]
    by_cases hii : i = i0
    · subst hii
      rw [if_pos (List.mem_filter.mpr ⟨hu, by simp [hgu]⟩), if_pos rfl]
    · rw [if_neg hii, if_neg ?_]
      intro hmem
      have := (List.mem_filter.mp hmem).2
      rw [decide_eq_true_iff, hgu] at this
      exact hii (by exact_mod_cast this.symm)
  rw [List.map_congr_left hpt, sum_indicator i0 cnt hi0]

/-! ### Example inputs used to instantiate the theorems -/

/-- Example collection: two components, `0 → 1` and `2 → 3`. -/
def exNodes : List Nat := [0, 1, 2, 3]

def exAdj : Nat → List Nat :=
  fun n => if n = 0 then [1] else if n = 2 then [3] else []

/-- Example collection with a duplicated member. -/
def exNodesDup : List Nat := [0, 1, 0]

def exAdjDup : Nat → List Nat := fun n => if n = 0 then [1] else []

/-! ### The grouping claims -/

/-- C1: for a closed input collection, two input nodes lie in a common
output group of `getConnectedComponent` iff they are connected by a path
of input edges taken in either direction. -/
theorem getConnectedComponent_same_group_iff_connected
    {fuel : Nat} {nodes : List Nat} {adjF : Nat → List Nat}
    {gs : List (List Nat)} (hcl : Closed nodes adjF)
    (h : getConnectedComponent fuel nodes adjF = some gs)
    {u v : Nat} (hu : u ∈ nodes) (hv : v ∈ nodes) :
    (∃ grp ∈ gs, u ∈ grp ∧ v ∈ grp) ↔ Conn nodes adjF u v := by
  obtain ⟨g, cnt, hal, hInv, hgs⟩ := getConnectedComponent_eq h
  subst hgs
  have huk : u ∈ insertionKeys nodes := (mem_insertionKeys _ _).mpr hu
  have hvk : v ∈ insertionKeys nodes := (mem_insertionKeys _ _).mpr hv
  constructor
  · rintro ⟨grp, hgrp, hug, hvg⟩
    rcases List.mem_map.mp hgrp with ⟨i, hir, hgrpe⟩
    rw [← hgrpe] at hug hvg
    have hgu : g u = (i : Int) :=
      decide_eq_true_iff.mp (List.mem_filter.mp hug).2
    have hgv : g v = (i : Int) :=
      decide_eq_true_iff.mp (List.mem_filter.mp hvg).2
    have hune : g u ≠ -1 := by rw [hgu]; omega
    have hr := hInv.sameConn u v hune (by rw [hgu, hgv])
    exact (reach_buildShell_iff_conn nodes adjF u v).mp hr
  · intro hconn
    have hr := (reach_buildShell_iff_conn nodes adjF u v).mpr hconn
    have hune : g u ≠ -1 := hInv.procAssigned u huk
    have hgv : g v = g u := hInv.compClosed u v hune hr
    obtain ⟨i, hi, hgi⟩ := hInv.rangeBound u hune
    refine ⟨(insertionKeys nodes).filter (fun k => decide (g k = (i : Int))),
      List.mem_map.mpr ⟨i, List.mem_range.mpr hi, rfl⟩, ?_, ?_⟩
    · exact List.mem_filter.mpr ⟨huk, by simp [hgi]⟩
    · exact List.mem_filter.mpr ⟨hvk, by simp [hgv, hgi]⟩

theorem getConnectedComponent_same_group_iff_connected_witness :
    Closed exNodes exAdj ∧
      ((∃ grp ∈ [[0, 1], [2, 3]], 0 ∈ grp ∧ 1 ∈ grp) ↔
        Conn exNodes exAdj 0 1) :=
  ⟨by decide,
    @getConnectedComponent_same_group_iff_connected 20 exNodes exAdj
      [[0, 1], [2, 3]] (by decide) (by decide) 0 1 (by decide) (by decide)⟩

/-- C2: for a closed input collection, every input node occurs exactly
once across the output groups of `getConnectedComponent`. -/
theorem getConnectedComponent_count_one
    {fuel : Nat} {nodes : List Nat} {adjF : Nat → List Nat}
    {gs : List (List Nat)} (hcl : Closed nodes adjF)
    (h : getConnectedComponent fuel nodes adjF = some gs)
    {u : Nat} (hu : u ∈ nodes) :
    (flattenGroups gs).count u = 1 := by
  obtain ⟨g, cnt, hal, hInv, hgs⟩ := getConnectedComponent_eq h
  subst hgs
  have huk : u ∈ insertionKeys nodes := (mem_insertionKeys _ _).mpr hu
  obtain ⟨i, hi, hgi⟩ := hInv.rangeBound u (hInv.procAssigned u huk)
  exact count_groupsSpec _ g cnt (insertionKeys_nodup nodes) u huk i hi hgi

theorem getConnectedComponent_count_one_witness :
    Closed exNodes exAdj ∧ (0 : Nat) ∈ exNodes ∧
      (flattenGroups [[0, 1], [2, 3]]).count 0 = 1 :=
  ⟨by decide, by decide,
    @getConnectedComponent_count_one 20 exNodes exAdj [[0, 1], [2, 3]]
      (by decide) (by decide) 0 (by decide)⟩

/-- C4: for every directed input edge `u → v` of a closed collection,
the shell graph holds both mirrored shell edges. -/
theorem buildShell_mirrored_edges
    {nodes : List Nat} {adjF : Nat → List Nat} (hcl : Closed nodes adjF)
    {u v : Nat} (hu : u ∈ nodes) (hv : v ∈ adjF u) :
    v ∈ buildShell nodes adjF u ∧ u ∈ buildShell nodes adjF v := by
  constructor
  · exact (mem_buildShell nodes adjF u v).mpr (Or.inl ⟨hu, hv⟩)
  · exact (mem_buildShell nodes adjF v u).mpr (Or.inr ⟨hu, hv⟩)

theorem buildShell_mirrored_edges_witness :
    Closed exNodes exAdj ∧ (0 : Nat) ∈ exNodes ∧ (1 : Nat) ∈ exAdj 0 ∧
      (1 ∈ buildShell exNodes exAdj 0 ∧ 0 ∈ buildShell exNodes exAdj 1) :=
  ⟨by decide, by decide, by decide,
    @buildShell_mirrored_edges exNodes exAdj (by decide) 0 1 (by decide)
      (by decide)⟩

/-- C5: the output of `getConnectedComponent` is the deterministic
bucketing of the keys: groups are indexed by the identifiers `0,…,cnt-1`
in increasing order, each group lists its nodes in key-scan (input)
order, and the identifiers occur, by first assignment along the key
scan, exactly in the order `0,1,2,…`. -/
theorem getConnectedComponent_ordered_output
    {fuel : Nat} {nodes : List Nat} {adjF : Nat → List Nat}
    {gs : List (List Nat)} (hcl : Closed nodes adjF)
    (h : getConnectedComponent fuel nodes adjF = some gs) :
    ∃ (g : Nat → Int) (cnt : Nat),
      assignLoop (buildShell nodes adjF) fuel (insertionKeys nodes)
        (fun _ => (-1 : Int)) 0 = some (g, cnt) ∧
      gs = groupsSpec (insertionKeys nodes) g cnt ∧
      insertionKeys ((insertionKeys nodes).map g) =
        (List.range cnt).map (fun i : Nat => (i : Int)) := by
  obtain ⟨g, cnt, hal, hInv, hgs⟩ := getConnectedComponent_eq h
  exact ⟨g, cnt, hal, hgs, hInv.fresh⟩

theorem getConnectedComponent_ordered_output_witness :
    Closed exNodes exAdj ∧
      ∃ (g : Nat → Int) (cnt : Nat),
        assignLoop (buildShell exNodes exAdj) 20 (insertionKeys exNodes)
          (fun _ => (-1 : Int)) 0 = some (g, cnt) ∧
        [[0, 1], [2, 3]] = groupsSpec (insertionKeys exNodes) g cnt ∧
        insertionKeys ((insertionKeys exNodes).map g) =
          (List.range cnt).map (fun i : Nat => (i : Int)) :=
  ⟨by decide,
    @getConnectedComponent_ordered_output 20 exNodes exAdj [[0, 1], [2, 3]]
      (by decide) (by decide)⟩

/-- C7: `getConnectedComponent` is deterministic over its input — two
successful runs on the same collection and successor map (with any
sufficient fuels) return identical groups. -/
theorem getConnectedComponent_deterministic
    {fuel1 fuel2 : Nat} {nodes : List Nat} {adjF : Nat → List Nat}
    {gs1 gs2 : List (List Nat)}
    (h1 : getConnectedComponent fuel1 nodes adjF = some gs1)
    (h2 : getConnectedComponent fuel2 nodes adjF = some gs2) :
    gs1 = gs2 := by
  rcases Nat.le_total fuel1 fuel2 with hle | hle
  · have := getConnectedComponent_fuel_le hle h1
    rw [this] at h2
    exact Option.some.inj h2
  · have := getConnectedComponent_fuel_le hle h2
    rw [this] at h1
    exact (Option.some.inj h1).symm

theorem getConnectedComponent_deterministic_witness :
    getConnectedComponent 20 exNodes exAdj = some [[0, 1], [2, 3]] ∧
      getConnectedComponent 33 exNodes exAdj = some [[0, 1], [2, 3]] ∧
      ([[0, 1], [2, 3]] : List (List Nat)) = [[0, 1], [2, 3]] :=
  ⟨by decide, by decide,
    @getConnectedComponent_deterministic 20 33 exNodes exAdj [[0, 1], [2, 3]]
      [[0, 1], [2, 3]] (by decide) (by decide)⟩

/-- C9: duplicate occurrences of a node in the input collection collapse
to a single map key (one shell node) and the node occurs exactly once in
the output groups. -/
theorem getConnectedComponent_duplicates_collapse
    {fuel : Nat} {nodes : List Nat} {adjF : Nat → List Nat}
    {gs : List (List Nat)} (hcl : Closed nodes adjF)
    {u : Nat} (hdup : 2 ≤ nodes.count u)
    (h : getConnectedComponent fuel nodes adjF = some gs) :
    (insertionKeys nodes).count u = 1 ∧ (flattenGroups gs).count u = 1 := by
  have hu : u ∈ nodes := by
    by_contra hun
    rw [List.count_eq_zero_of_not_mem hun] at hdup
    omega
  constructor
  · rw [nodup_count _ (insertionKeys_nodup nodes) u,
      if_pos ((mem_insertionKeys _ _).mpr hu)]
  · exact getConnectedComponent_count_one hcl h hu

theorem getConnectedComponent_duplicates_collapse_witness :
    Closed exNodesDup exAdjDup ∧ 2 ≤ exNodesDup.count 0 ∧
      ((insertionKeys exNodesDup).count 0 = 1 ∧
        (flattenGroups [[0, 1]]).count 0 = 1) :=
  ⟨by decide, by decide,
    @getConnectedComponent_duplicates_collapse 20 exNodesDup exAdjDup [[0, 1]]
      (by decide) 0 (by decide) (by decide)⟩

/-! ### `treeBfs` and the stop semantics of the callbacks

`treeBfs` is the same loop without the visited set: pop the head, call
the callback, and push all successors unless the callback returned
true.  To observe which nodes the callbacks are invoked on, both loops
are run with a logging callback: the state is the list of visited
nodes, the stop decision is a pure predicate on the node. -/

def treeBfsRun {σ : Type} (adjF : Nat → List Nat)
    (stepF : σ → Nat → σ × Bool) : Nat → List Nat → σ → Option σ
  | _, [], s => some s
  | 0, _ :: _, _ => none
  | fuel + 1, c :: rest, s =>
    let res := stepF s c
    if res.2 then treeBfsRun adjF stepF fuel rest res.1
    else treeBfsRun adjF stepF fuel (rest ++ adjF c) res.1

/-- A logging step callback: record the visited node, stop according to
the pure predicate `stopF`. -/
def logStep (stopF : Nat → Bool) : List Nat → Nat → (List Nat × Bool) :=
  fun log c => (log ++ [c], stopF c)

theorem treeBfsRun_nil {σ : Type} (adjF : Nat → List Nat)
    (stepF : σ → Nat → σ × Bool) (fuel : Nat) (s : σ) :
    treeBfsRun adjF stepF fuel [] s = some s := by
  cases fuel <;> simp [treeBfsRun]

theorem treeBfsRun_cons {σ : Type} (adjF : Nat → List Nat)
    (stepF : σ → Nat → σ × Bool) (fuel : Nat) (c : Nat) (rest : List Nat)
    (s : σ) :
    treeBfsRun adjF stepF (fuel + 1) (c :: rest) s =
      (if (stepF s c).2 then treeBfsRun adjF stepF fuel rest (stepF s c).1
       else treeBfsRun adjF stepF fuel (rest ++ adjF c) (stepF s c).1) := by
  simp [treeBfsRun]

theorem treeBfsRun_log_mono {adjF : Nat → List Nat} {stopF : Nat → Bool} :
    ∀ {fuel : Nat} {queue log log' : List Nat},
      treeBfsRun adjF (logStep stopF) fuel queue log = some log' →
      ∀ x ∈ log, x ∈ log' := by
  intro fuel
  induction fuel with
  | zero =>
      intro queue log log' h x hx
      cases queue with
      | nil => rw [treeBfsRun_nil] at h; cases h; exact hx
      | cons c rest => simp [treeBfsRun] at h
  | succ fuel ih =>
      intro queue log log' h x hx
      cases queue with
      | nil => rw [treeBfsRun_nil] at h; cases h; exact hx
      | cons c rest =>
          rw [treeBfsRun_cons] at h
          have hx2 : x ∈ (logStep stopF log c).1 := List.mem_append_left _ hx
          by_cases hstop : (logStep stopF log c).2
          · rw [if_pos hstop] at h; exact ih h x hx2
          · rw [if_neg hstop] at h; exact ih h x hx2

theorem treeBfsRun_queue_log {adjF : Nat → List Nat} {stopF : Nat → Bool} :
    ∀ {fuel : Nat} {queue log log' : List Nat},
      treeBfsRun adjF (logStep stopF) fuel queue log = some log' →
      ∀ q ∈ queue, q ∈ log' := by
  intro fuel
  induction fuel with
  | zero =>
      intro queue log log' h q hq
      cases queue with
      | nil => simp at hq
      | cons c rest => simp [treeBfsRun] at h
  | succ fuel ih =>
      intro queue log log' h q hq
      cases queue with
      | nil => simp at hq
      | cons c rest =>
          rw [treeBfsRun_cons] at h
          rcases List.mem_cons.mp hq with hqc | hqr
          · subst hqc
            have hq2 : q ∈ (logStep stopF log q).1 :=
              List.mem_append_right _ (List.mem_singleton_self _)
            by_cases hstop : (logStep stopF log q).2
            · rw [if_pos hstop] at h; exact treeBfsRun_log_mono h q hq2
            · rw [if_neg hstop] at h; exact treeBfsRun_log_mono h q hq2
          · by_cases hstop : (logStep stopF log c).2
            · rw [if_pos hstop] at h; exact ih h q hqr
            · rw [if_neg hstop] at h
              exact ih h q (List.mem_append_left _ hqr)

theorem treeBfsRun_log_sound {adjF : Nat → List Nat} {stopF : Nat → Bool}
    {root : Nat} :
    ∀ {fuel : Nat} {queue log log' : List Nat},
      treeBfsRun adjF (logStep stopF) fuel queue log = some log' →
      (∀ q ∈ queue, q = root ∨ ∃ u ∈ log', stopF u = false ∧ q ∈ adjF u) →
      (∀ v ∈ log, v = root ∨ ∃ u ∈ log', stopF u = false ∧ v ∈ adjF u) →
      ∀ v ∈ log', v = root ∨ ∃ u ∈ log', stopF u = false ∧ v ∈ adjF u := by
  intro fuel
  induction fuel with
  | zero =>
      intro queue log log' h hque hlog v hv
      cases queue with
      | nil => rw [treeBfsRun_nil] at h; cases h; exact hlog v hv
      | cons c rest => simp [treeBfsRun] at h
  | succ fuel ih =>
      intro queue log log' h hque hlog v hv
      cases queue with
      | nil => rw [treeBfsRun_nil] at h; cases h; exact hlog v hv
      | cons c rest =>
          rw [treeBfsRun_cons] at h
          have hlog2 : ∀ w ∈ (logStep stopF log c).1,
              w = root ∨ ∃ u ∈ log', stopF u = false ∧ w ∈ adjF u := by
            intro w hw
            rcases List.mem_append.mp hw with hw | hw
            · exact hlog w hw
            · rcases List.mem_singleton.mp hw with rfl
              exact hque w (List.mem_cons_self _ _)
          by_cases hstop : (logStep stopF log c).2
          · rw [if_pos hstop] at h
            exact ih h (fun q hq => hque q (List.mem_cons_of_mem _ hq))
              hlog2 v hv
          · rw [if_neg hstop] at h
            have hque2 : ∀ q ∈ rest ++ adjF c,
                q = root ∨ ∃ u ∈ log', stopF u = false ∧ q ∈ adjF u := by
              intro q hq
              rcases List.mem_append.mp hq with hq | hq
              · exact hque q (List.mem_cons_of_mem _ hq)
              · refine Or.inr ⟨c, ?_, ?_, hq⟩
                · exact treeBfsRun_log_mono h c
                    (List.mem_append_right _ (List.mem_singleton_self _))
                · simpa [logStep] using hstop
            exact ih h hque2 hlog2 v hv

theorem treeBfsRun_log_closed {adjF : Nat → List Nat} {stopF : Nat → Bool} :
    ∀ {fuel : Nat} {queue log log' : List Nat},
      treeBfsRun adjF (logStep stopF) fuel queue log = some log' →
      ∀ u ∈ log', u ∈ log ∨ stopF u = true ∨ ∀ v ∈ adjF u, v ∈ log' := by
  intro fuel
  induction fuel with
  | zero =>
      intro queue log log' h u hu
      cases queue with
      | nil => rw [treeBfsRun_nil] at h; cases h; exact Or.inl hu
      | cons c rest => simp [treeBfsRun] at h
  | succ fuel ih =>
      intro queue log log' h u hu
      cases queue with
      | nil => rw [treeBfsRun_nil] at h; cases h; exact Or.inl hu
      | cons c rest =>
          rw [treeBfsRun_cons] at h
          by_cases hstop : (logStep stopF log c).2
          · rw [if_pos hstop] at h
            rcases ih h u hu with hu2 | hu2
            · rcases List.mem_append.mp hu2 with hu3 | hu3
              · exact Or.inl hu3
              · rcases List.mem_singleton.mp hu3 with rfl
                refine Or.inr (Or.inl ?_)
                simpa [logStep] using hstop
            · exact Or.inr hu2
          · rw [if_neg hstop] at h
            rcases ih h u hu with hu2 | hu2
            · rcases List.mem_append.mp hu2 with hu3 | hu3
              · exact Or.inl hu3
              · rcases List.mem_singleton.mp hu3 with rfl
                refine Or.inr (Or.inr ?_)
                intro v hv
                exact treeBfsRun_queue_log h v (List.mem_append_right _ hv)
            · exact Or.inr hu2

theorem graphBfsRun_log_mono {adjF : Nat → List Nat} {stopF : Nat → Bool} :
    ∀ {fuel : Nat} {vis queue log log' V : List Nat},
      graphBfsRun adjF (logStep stopF) fuel vis queue log = some (log', V) →
      ∀ x ∈ log, x ∈ log' := by
  intro fuel
  induction fuel with
  | zero =>
      intro vis queue log log' V h x hx
      cases queue with
      | nil => rw [graphBfsRun_nil] at h; cases h; exact hx
      | cons c rest => simp [graphBfsRun] at h
  | succ fuel ih =>
      intro vis queue log log' V h x hx
      cases queue with
      | nil => rw [graphBfsRun_nil] at h; cases h; exact hx
      | cons c rest =>
          rw [graphBfsRun_cons] at h
          have hx2 : x ∈ (logStep stopF log c).1 := List.mem_append_left _ hx
          by_cases hstop : (logStep stopF log c).2
          · rw [if_pos hstop] at h; exact ih h x hx2
          · rw [if_neg hstop] at h; exact ih h x hx2

theorem graphBfsRun_queue_log {adjF : Nat → List Nat} {stopF : Nat → Bool} :
    ∀ {fuel : Nat} {vis queue log log' V : List Nat},
      graphBfsRun adjF (logStep stopF) fuel vis queue log = some (log', V) →
      ∀ q ∈ queue, q ∈ log' := by
  intro fuel
  induction fuel with
  | zero =>
      intro vis queue log log' V h q hq
      cases queue with
      | nil => simp at hq
      | cons c rest => simp [graphBfsRun] at h
  | succ fuel ih =>
      intro vis queue log log' V h q hq
      cases queue with
      | nil => simp at hq
      | cons c rest =>
          rw [graphBfsRun_cons] at h
          rcases List.mem_cons.mp hq with hqc | hqr
          · subst hqc
            have hq2 : q ∈ (logStep stopF log q).1 :=
              List.mem_append_right _ (List.mem_singleton_self _)
            by_cases hstop : (logStep stopF log q).2
            · rw [if_pos hstop] at h; exact graphBfsRun_log_mono h q hq2
            · rw [if_neg hstop] at h; exact graphBfsRun_log_mono h q hq2
          · by_cases hstop : (logStep stopF log c).2
            · rw [if_pos hstop] at h; exact ih h q hqr
            · rw [if_neg hstop] at h
              exact ih h q (List.mem_append_left _ hqr)

theorem graphBfsRun_log_sound {adjF : Nat → List Nat} {stopF : Nat → Bool}
    {root : Nat} :
    ∀ {fuel : Nat} {vis queue log log' V : List Nat},
      graphBfsRun adjF (logStep stopF) fuel vis queue log = some (log', V) →
      (∀ q ∈ queue, q = root ∨ ∃ u ∈ log', stopF u = false ∧ q ∈ adjF u) →
      (∀ v ∈ log, v = root ∨ ∃ u ∈ log', stopF u = false ∧ v ∈ adjF u) →
      ∀ v ∈ log', v = root ∨ ∃ u ∈ log', stopF u = false ∧ v ∈ adjF u := by
  intro fuel
  induction fuel with
  | zero =>
      intro vis queue log log' V h hque hlog v hv
      cases queue with
      | nil => rw [graphBfsRun_nil] at h; cases h; exact hlog v hv
      | cons c rest => simp [graphBfsRun] at h
  | succ fuel ih =>
      intro vis queue log log' V h hque hlog v hv
      cases queue with
      | nil => rw [graphBfsRun_nil] at h; cases h; exact hlog v hv
      | cons c rest =>
          rw [graphBfsRun_cons] at h
          have hlog2 : ∀ w ∈ (logStep stopF log c).1,
              w = root ∨ ∃ u ∈ log', stopF u = false ∧ w ∈ adjF u := by
            intro w hw
            rcases List.mem_append.mp hw with hw | hw
            · exact hlog w hw
            · rcases List.mem_singleton.mp hw with rfl
              exact hque w (List.mem_cons_self _ _)
          by_cases hstop : (logStep stopF log c).2
          · rw [if_pos hstop] at h
            exact ih h (fun q hq => hque q (List.mem_cons_of_mem _ hq))
              hlog2 v hv
          · rw [if_neg hstop] at h
            have hque2 : ∀ q ∈ rest ++ (adjF c).filter
                (fun w => decide (w ∉ (if c ∈ vis then vis else vis ++ [c]))),
                q = root ∨ ∃ u ∈ log', stopF u = false ∧ q ∈ adjF u := by
              intro q hq
              rcases List.mem_append.mp hq with hq | hq
              · exact hque q (List.mem_cons_of_mem _ hq)
              · refine Or.inr ⟨c, ?_, ?_, (List.mem_filter.mp hq).1⟩
                · exact graphBfsRun_log_mono h c
                    (List.mem_append_right _ (List.mem_singleton_self _))
                · simpa [logStep] using hstop
            exact ih h hque2 hlog2 v hv

theorem graphBfsRun_log_closed {adjF : Nat → List Nat} {stopF : Nat → Bool} :
    ∀ {fuel : Nat} {vis queue log log' V : List Nat},
      graphBfsRun adjF (logStep stopF) fuel vis queue log = some (log', V) →
      (∀ x ∈ vis, x ∈ log) →
      ∀ u ∈ log', u ∈ log ∨ stopF u = true ∨ ∀ v ∈ adjF u, v ∈ log' := by
  intro fuel
  induction fuel with
  | zero =>
      intro vis queue log log' V h hvl u hu
      cases queue with
      | nil => rw [graphBfsRun_nil] at h; cases h; exact Or.inl hu
      | cons c rest => simp [graphBfsRun] at h
  | succ fuel ih =>
      intro vis queue log log' V h hvl u hu
      cases queue with
      | nil => rw [graphBfsRun_nil] at h; cases h; exact Or.inl hu
      | cons c rest =>
          rw [graphBfsRun_cons] at h
          have hvl2 : ∀ x ∈ (if c ∈ vis then vis else vis ++ [c]),
              x ∈ (logStep stopF log c).1 := by
            intro x hx
            by_cases hc : c ∈ vis
            · rw [if_pos hc] at hx
              exact List.mem_append_left _ (hvl x hx)
            · rw [if_neg hc] at hx
              rcases List.mem_append.mp hx with hx | hx
              · exact List.mem_append_left _ (hvl x hx)
              · exact List.mem_append_right _ hx
          by_cases hstop : (logStep stopF log c).2
          · rw [if_pos hstop] at h
            rcases ih h hvl2 u hu with hu2 | hu2
            · rcases List.mem_append.mp hu2 with hu3 | hu3
              · exact Or.inl hu3
              · rcases List.mem_singleton.mp hu3 with rfl
                refine Or.inr (Or.inl ?_)
                simpa [logStep] using hstop
            · exact Or.inr hu2
          · rw [if_neg hstop] at h
            rcases ih h hvl2 u hu with hu2 | hu2
            · rcases List.mem_append.mp hu2 with hu3 | hu3
              · exact Or.inl hu3
              · rcases List.mem_singleton.mp hu3 with rfl
                refine Or.inr (Or.inr ?_)
                intro v hv
                by_cases hvv : v ∈ (if u ∈ vis then vis else vis ++ [u])
                · exact graphBfsRun_log_mono h v (hvl2 v hvv)
                · refine graphBfsRun_queue_log h v ?_
                  refine List.mem_append_right _ ?_
                  exact List.mem_filter.mpr ⟨hv, by simpa using hvv⟩
            · exact Or.inr hu2

/-- C10: in both traversals, a node whose callback returned true has no
successor enqueued from it (every visited node other than the root was
reached from a non-stopped visited node), while every successor of a
node whose callback returned false is eventually visited. -/
theorem bfs_stop_semantics (adjF : Nat → List Nat) (stopF : Nat → Bool)
    (fuelT fuelG : Nat) (root : Nat) (logT logG visG : List Nat)
    (ht : treeBfsRun adjF (logStep stopF) fuelT [root] [] = some logT)
    (hg : graphBfsRun adjF (logStep stopF) fuelG [] [root] [] =
      some (logG, visG)) :
    (∀ v ∈ logT, v = root ∨ ∃ u ∈ logT, stopF u = false ∧ v ∈ adjF u) ∧
    (∀ u ∈ logT, stopF u = false → ∀ v ∈ adjF u, v ∈ logT) ∧
    (∀ v ∈ logG, v = root ∨ ∃ u ∈ logG, stopF u = false ∧ v ∈ adjF u) ∧
    (∀ u ∈ logG, stopF u = false → ∀ v ∈ adjF u, v ∈ logG) := by
  refine ⟨?_, ?_, ?_, ?_⟩
  · refine treeBfsRun_log_sound ht ?_ ?_
    · intro q hq
      rcases List.mem_singleton.mp hq with rfl
      exact Or.inl rfl
    · intro v hv; simp at hv
  · intro u hu hns v hv
    rcases treeBfsRun_log_closed ht u hu with h2 | h2 | h2
    · simp at h2
    · rw [hns] at h2; cases h2
    · exact h2 v hv
  · refine graphBfsRun_log_sound hg ?_ ?_
    · intro q hq
      rcases List.mem_singleton.mp hq with rfl
      exact Or.inl rfl
    · intro v hv; simp at hv
  · intro u hu hns v hv
    rcases graphBfsRun_log_closed hg (by intro x hx; simp at hx) u hu
        with h2 | h2 | h2
    · simp at h2
    · rw [hns] at h2; cases h2
    · exact h2 v hv

def exStopAdj : Nat → List Nat :=
  fun n => if n = 0 then [1, 2] else if n = 2 then [3] else []

def exStopF : Nat → Bool := fun n => decide (n = 2)

theorem bfs_stop_semantics_witness :
    treeBfsRun exStopAdj (logStep exStopF) 10 [0] [] = some [0, 1, 2] ∧
    graphBfsRun exStopAdj (logStep exStopF) 10 [] [0] [] =
      some ([0, 1, 2], [0, 1, 2]) ∧
    ((∀ v ∈ [0, 1, 2], v = 0 ∨
        ∃ u ∈ [0, 1, 2], exStopF u = false ∧ v ∈ exStopAdj u) ∧
      (∀ u ∈ [0, 1, 2], exStopF u = false → ∀ v ∈ exStopAdj u,
        v ∈ [0, 1, 2]) ∧
      (∀ v ∈ [0, 1, 2], v = 0 ∨
        ∃ u ∈ [0, 1, 2], exStopF u = false ∧ v ∈ exStopAdj u) ∧
      (∀ u ∈ [0, 1, 2], exStopF u = false → ∀ v ∈ exStopAdj u,
        v ∈ [0, 1, 2])) :=
  ⟨by decide, by decide,
    bfs_stop_semantics exStopAdj exStopF 10 10 0 [0, 1, 2] [0, 1, 2] [0, 1, 2]
      (by decide) (by decide)⟩

/-! ### The double-visit of `graphBfs`

`graphBfs` adds a node to the visited set only when it is dequeued and
filters pushes against that set, so a node reachable on two paths can
sit in the queue twice before its first dequeue and then be handed to
the step callback twice — contradicting the doc comment "Every node
will be visted only once."  The diamond `0 → 1, 0 → 2, 1 → 3, 2 → 3`
(as `getConnectedComponent` would traverse its shell graph from node 0)
exhibits this: the callback invocation log is `[0, 1, 2, 3, 3]`. -/

def cexAdj : Nat → List Nat :=
  fun n =>
    if n = 0 then [1, 2] else if n = 1 then [3] else if n = 2 then [3] else []

theorem graphBfs_step_invoked_twice :
    graphBfsRun (buildShell [0, 1, 2, 3] cexAdj) (logStep (fun _ => false)) 10
      [] [0] [] = some ([0, 1, 2, 3, 3], [0, 1, 2, 3]) ∧
    ([0, 1, 2, 3, 3] : List Nat).count 3 = 2 :=
  ⟨by decide, by decide⟩

/-! ### Termination of `graphBfs`

The loop terminates on every finite closed graph.  The measure is
lexicographic: first the number of universe nodes not yet visited, then
the position of the first unvisited node in the queue (queue length when
there is none).  Dequeuing an unvisited node shrinks the first
component; dequeuing an already-visited node keeps it and shrinks the
second, because pushes are filtered to unvisited nodes and append after
the queue. -/

/-- Position of the first element of the queue that is not yet visited;
the queue length when every queued node is visited. -/
def firstFresh (visited : List Nat) : List Nat → Nat
  | [] => 0
  | q :: qs => if q ∈ visited then firstFresh visited qs + 1 else 0

theorem firstFresh_cons_mem (vis : List Nat) (q : Nat) (qs : List Nat)
    (h : q ∈ vis) : firstFresh vis (q :: qs) = firstFresh vis qs + 1 := by
  simp [firstFresh, h]

theorem firstFresh_cons_notmem (vis : List Nat) (q : Nat) (qs : List Nat)
    (h : q ∉ vis) : firstFresh vis (q :: qs) = 0 := by
  simp [firstFresh, h]

theorem firstFresh_append_found (vis : List Nat) :
    ∀ (l1 l2 : List Nat), (∃ x ∈ l1, x ∉ vis) →
      firstFresh vis (l1 ++ l2) = firstFresh vis l1 := by
  intro l1
  induction l1 with
  | nil =>
      rintro l2 ⟨x, hx, _⟩
      simp at hx
  | cons a l1 ih =>
      rintro l2 ⟨x, hx, hxv⟩
      by_cases ha : a ∈ vis
      · have hxl : x ∈ l1 := by
          rcases List.mem_cons.mp hx with h | h
          · subst h; exact absurd ha hxv
          · exact h
        rw [List.cons_append, firstFresh_cons_mem vis a _ ha,
          firstFresh_cons_mem vis a _ ha, ih l2 ⟨x, hxl, hxv⟩]
      · rw [List.cons_append, firstFresh_cons_notmem vis a _ ha,
          firstFresh_cons_notmem vis a _ ha]

theorem firstFresh_append_all (vis : List Nat) :
    ∀ (l1 l2 : List Nat), (∀ x ∈ l1, x ∈ vis) →
      firstFresh vis (l1 ++ l2) = l1.length + firstFresh vis l2 := by
  intro l1
  induction l1 with
  | nil => intro l2 _; simp
  | cons a l1 ih =>
      intro l2 hall
      have ha : a ∈ vis := hall a (List.mem_cons_self _ _)
      rw [List.cons_append, firstFresh_cons_mem vis a _ ha,
        ih l2 (fun x hx => hall x (List.mem_cons_of_mem _ hx)),
        List.length_cons]
      omega

theorem firstFresh_all (vis l : List Nat) (h : ∀ x ∈ l, x ∈ vis) :
    firstFresh vis l = l.length := by
  simpa using firstFresh_append_all vis l [] h

theorem firstFresh_filter_zero (vis : List Nat) :
    ∀ l : List Nat,
      firstFresh vis (l.filter (fun v => decide (v ∉ vis))) = 0 := by
  intro l
  induction l with
  | nil => rfl
  | cons a l ih =>
      by_cases ha : a ∈ vis
      · rw [List.filter_cons_of_neg (by simpa using ha)]
        exact ih
      · rw [List.filter_cons_of_pos (by simpa using ha)]
        simp [firstFresh, ha]

theorem graphBfsRun_total_aux {σ : Type} (adjF : Nat → List Nat)
    (stepF : σ → Nat → σ × Bool) (univ : List Nat)
    (hcl : ∀ u ∈ univ, ∀ v ∈ adjF u, v ∈ univ) :
    ∀ (a : Nat), ∀ (b : Nat), ∀ (vis queue : List Nat) (s : σ),
      (∀ q ∈ queue, q ∈ univ) →
      (univ.toFinset \ vis.toFinset).card = a →
      firstFresh vis queue = b →
      ∃ fuel r, graphBfsRun adjF stepF fuel vis queue s = some r := by
  intro a
  induction a using Nat.strong_induction_on with
  | _ a ihA =>
    intro b
    induction b using Nat.strong_induction_on with
    | _ b ihB =>
      intro vis queue s hq hca hfb
      cases queue with
      | nil => exact ⟨0, (s, vis), by rw [graphBfsRun_nil]⟩
      | cons c rest =>
        have hcu : c ∈ univ := hq c (List.mem_cons_self _ _)
        by_cases hcv : c ∈ vis
        · have hb : b = firstFresh vis rest + 1 := by
            rw [← hfb]
            simp [firstFresh, hcv]
          by_cases hstop : (stepF s c).2
          · obtain ⟨fuel, r, hrun⟩ := ihB (firstFresh vis rest) (by omega)
              vis rest (stepF s c).1
              (fun q hq2 => hq q (List.mem_cons_of_mem _ hq2)) hca rfl
            refine ⟨fuel + 1, r, ?_⟩
            rw [graphBfsRun_cons, if_pos hstop, if_pos hcv]
            exact hrun
          · have hqueue2 : ∀ q ∈ rest ++ (adjF c).filter
                (fun v => decide (v ∉ vis)), q ∈ univ := by
              intro q hq2
              rcases List.mem_append.mp hq2 with h2 | h2
              · exact hq q (List.mem_cons_of_mem _ h2)
              · exact hcl c hcu q (List.mem_filter.mp h2).1
            have hlt : firstFresh vis (rest ++ (adjF c).filter
                (fun v => decide (v ∉ vis))) < b := by
              by_cases hex : ∃ x ∈ rest, x ∉ vis
              · rw [firstFresh_append_found vis rest _ hex]
                omega
              · push_neg at hex
                rw [firstFresh_append_all vis rest _ hex,
                  firstFresh_filter_zero, hb, firstFresh_all vis rest hex]
                omega
            obtain ⟨fuel, r, hrun⟩ := ihB _ hlt vis _ (stepF s c).1
              hqueue2 hca rfl
            refine ⟨fuel + 1, r, ?_⟩
            rw [graphBfsRun_cons, if_neg hstop, if_pos hcv]
            exact hrun
        · have hsub : univ.toFinset \ (vis ++ [c]).toFinset ⊆
              univ.toFinset \ vis.toFinset := by
            intro x hx
            rw [Finset.mem_sdiff] at hx ⊢
            refine ⟨hx.1, fun hxv => hx.2 ?_⟩
            rw [List.mem_toFinset] at hxv ⊢
            exact List.mem_append_left _ hxv
          have hcmem : c ∈ univ.toFinset \ vis.toFinset := by
            rw [Finset.mem_sdiff, List.mem_toFinset, List.mem_toFinset]
            exact ⟨hcu, hcv⟩
          have hcnot : c ∉ univ.toFinset \ (vis ++ [c]).toFinset := by
            simp
          have hlt : (univ.toFinset \ (vis ++ [c]).toFinset).card < a := by
            rw [← hca]
            exact Finset.card_lt_card
              ((Finset.ssubset_iff_of_subset hsub).mpr ⟨c, hcmem, hcnot⟩)
          by_cases hstop : (stepF s c).2
          · obtain ⟨fuel, r, hrun⟩ := ihA _ hlt (firstFresh (vis ++ [c]) rest)
              (vis ++ [c]) rest (stepF s c).1
              (fun q hq2 => hq q (List.mem_cons_of_mem _ hq2)) rfl rfl
            refine ⟨fuel + 1, r, ?_⟩
            rw [graphBfsRun_cons, if_pos hstop, if_neg hcv]
            exact hrun
          · have hqueue2 : ∀ q ∈ rest ++ (adjF c).filter
                (fun v => decide (v ∉ vis ++ [c])), q ∈ univ := by
              intro q hq2
              rcases List.mem_append.mp hq2 with h2 | h2
              · exact hq q (List.mem_cons_of_mem _ h2)
              · exact hcl c hcu q (List.mem_filter.mp h2).1
            obtain ⟨fuel, r, hrun⟩ := ihA _ hlt
              (firstFresh (vis ++ [c]) (rest ++ (adjF c).filter
                (fun v => decide (v ∉ vis ++ [c]))))
              (vis ++ [c]) _ (stepF s c).1 hqueue2 rfl rfl
            refine ⟨fuel + 1, r, ?_⟩
            rw [graphBfsRun_cons, if_neg hstop, if_neg hcv]
            exact hrun

/-- C8: `graphBfs` terminates on every finite graph (cycles and
self-loops included): some fuel lets the loop drain its queue. -/
theorem graphBfs_terminates {σ : Type} (adjF : Nat → List Nat)
    (stepF : σ → Nat → σ × Bool) (univ : List Nat) (root : Nat) (s : σ)
    (hroot : root ∈ univ)
    (hcl : ∀ u ∈ univ, ∀ v ∈ adjF u, v ∈ univ) :
    ∃ fuel r, graphBfsRun adjF stepF fuel [] [root] s = some r :=
  graphBfsRun_total_aux adjF stepF univ hcl _ _ [] [root] s
    (fun q hq => by rcases List.mem_singleton.mp hq with rfl; exact hroot)
    rfl rfl

def exTermAdj : Nat → List Nat := fun n => if n = 0 then [0, 1] else [0]

theorem graphBfs_terminates_witness :
    (0 : Nat) ∈ [0, 1] ∧ (∀ u ∈ [0, 1], ∀ v ∈ exTermAdj u, v ∈ [0, 1]) ∧
      ∃ fuel r, graphBfsRun exTermAdj
        (fun (s : Nat) (c : Nat) => (s + c, false)) fuel [] [0] 0 = some r :=
  ⟨by decide, by decide,
    graphBfs_terminates exTermAdj _ [0, 1] 0 0 (by decide) (by decide)⟩

end Algo
